/- Verification of the registry/consistency logic of the local-secrets-manager
repository (src/secrets_manager.py).

The keyring (OS secret store) is modelled as an association list from
(service, account) keys to values, together with an environment of failure
flags: for each key, whether get_password / set_password / delete_password
raises.  Raising `keyring.errors.PasswordDeleteError` on a missing entry is
modelled separately (DelOut.notFound), as in the keyring API.  Registry
payloads are JSON strings in the source; since json.dumps is injective and
json.loads inverts it, a stored payload is modelled as the parsed list of
strings (Val.list), while user secrets are plain strings (Val.str).  A
json.loads failure on a non-list payload is the same caught-exception path
as a get failure.  Python sets (set(json.loads ...)) are modelled as
duplicate-free lists via List.dedup; every observable result in the source
is membership-, count- or sorted-order-based, so the arbitrary iteration
order of a Python set is not observable. -/
import Mathlib

/-- A keyring key: (service name, account/variable name). -/
abbrev KKey := String × String

/-- A stored value: a user secret string, or a parsed JSON list payload of the
registry (see the header comment). -/
inductive Val where
  | str (s : String)
  | list (l : List String)
deriving DecidableEq

/-- The keyring contents. -/
abbrev KStore := List (KKey × Val)

/-- Association-list lookup on the keyring contents. -/
def kfind (st : KStore) (k : KKey) : Option Val :=
  match st with
  | [] => none
  | (k', v) :: rest => if k' = k then some v else kfind rest k

/-- Overwrite/insert a key (keyring.set_password semantics). -/
def kinsert (st : KStore) (k : KKey) (v : Val) : KStore :=
  (k, v) :: st.filter (fun e => e.1 ≠ k)

/-- Remove a key (keyring.delete_password semantics). -/
def kerase (st : KStore) (k : KKey) : KStore :=
  st.filter (fun e => e.1 ≠ k)

/-- Environment of keyring failures: per key, whether get_password,
set_password, or delete_password raises a (non-not-found) exception.  The
schedule is part of the environment and is not changed by operations. -/
structure Env where
  getFails : KKey → Bool
  setFails : KKey → Bool
  delFails : KKey → Bool

/-- keyring.get_password: `none` = raised an exception; `some o` = returned
o (with `o = none` meaning the entry is absent / Python None). -/
def kget (env : Env) (st : KStore) (k : KKey) : Option (Option Val) :=
  if env.getFails k then none else some (kfind st k)

/-- keyring.set_password: `none` = raised; `some st'` = updated contents. -/
def kset (env : Env) (st : KStore) (k : KKey) (v : Val) : Option KStore :=
  if env.setFails k then none else some (kinsert st k v)

/-- Outcome of keyring.delete_password. -/
inductive DelOut where
  | ok (st : KStore)
  | notFound
  | err

/-- keyring.delete_password: raises PasswordDeleteError (notFound) when the
entry is absent, a generic error when the environment says so. -/
def kdel (env : Env) (st : KStore) (k : KKey) : DelOut :=
  if env.delFails k then .err
  else
    match kfind st k with
    | some _ => .ok (kerase st k)
    | none => .notFound

/-- `self._registry_service` in CredentialManager.__init__. -/
def registryService : String := "_credential_manager_registry"

/-- `self._registry_key` in CredentialManager.__init__. -/
def registryKey : String := "prefixes"

/-- `f"_refs_{prefix}"` used by the reference bookkeeping. -/
def refsKey (p : String) : String := "_refs_" ++ p

/-- CredentialManager._make_service_name: `f"{self.prefix}.{service}"`. -/
def make_service_name (p service : String) : String := p ++ "." ++ service

/-- The keyring key addressed by retrieve/store/delete for (p, s, v). -/
def userKey (p s v : String) : KKey := (make_service_name p s, v)

/-- `f"{service}|{variable}"`: the reference encoding used by the registry. -/
def encodeRef (s v : String) : String := s ++ "|" ++ v

/-- `'|' in ref` in list_credentials. -/
def hasBar (r : String) : Bool := r.data.contains '|'

/-- `ref.split('|', 1)`: split at the first bar. -/
def splitRef (r : String) : String × String :=
  (⟨r.data.takeWhile (fun c => c != '|')⟩,
   ⟨(r.data.dropWhile (fun c => c != '|')).drop 1⟩)

/-- The (service, variable) pair a registry ref string decodes to, if any
(refs with no bar are skipped by list_credentials). -/
def decodeRef (r : String) : Option (String × String) :=
  if hasBar r then some (splitRef r) else none

/-- Python's `prefix.rstrip('.')`: remove all trailing dots. -/
def rstripDot (s : String) : String :=
  ⟨(s.data.reverse.dropWhile (fun c => c == '.')).reverse⟩

/-- `c.isalnum() or c in '.-_'` of _sanitize_prefix.  Python's str.isalnum
is Unicode-aware; this model covers the ASCII fragment (Char.isAlpha and
Char.isDigit are exactly [A-Za-z] and [0-9]), and every theorem about it
stays within ASCII inputs. -/
def pyAllowed (c : Char) : Bool :=
  c.isAlpha || c.isDigit || c == '.' || c == '-' || c == '_'

/-- CredentialManager._sanitize_prefix: `none` models a raised ValueError.
The emptiness check happens BEFORE stripping trailing dots, exactly as in
the source. -/
def sanitize_pfx (p : String) : Option String :=
  if p = "" then none
  else
    let q := rstripDot p
    if q.data.all pyAllowed then some q else none

/-- Generic insertion used to model Python's `sorted` (see sortByLe). -/
def insertLe {α : Type} (le : α → α → Bool) (x : α) : List α → List α
  | [] => [x]
  | y :: ys => if le x y then x :: y :: ys else y :: insertLe le x ys

/-- Insertion sort by a boolean relation.  For the total, transitive and
antisymmetric orders used here (code-point order on strings, lexicographic
order on pairs) the sorted permutation of a list is unique, so this agrees
with Python's `sorted`. -/
def sortByLe {α : Type} (le : α → α → Bool) (l : List α) : List α :=
  l.foldr (insertLe le) []

/-- Code-point lexicographic order on char lists = Python string order. -/
def listLeB : List Char → List Char → Bool
  | [], _ => true
  | _ :: _, [] => false
  | a :: as, b :: bs => if a = b then listLeB as bs else decide (a < b)

/-- Python `s1 <= s2` on strings. -/
def strLeB (a b : String) : Bool := listLeB a.data b.data

/-- Python tuple order on (service, variable) pairs. -/
def pairLeB (x y : String × String) : Bool :=
  if x.1 = y.1 then strLeB x.2 y.2 else strLeB x.1 y.1

/-- `sorted(credentials)` on a list of (service, variable) pairs. -/
def sortPairs (l : List (String × String)) : List (String × String) :=
  sortByLe pairLeB l

/-- `sorted(...)` on a list of strings. -/
def sortStrings (l : List String) : List String :=
  sortByLe strLeB l

/-- CredentialManager._get_registered_prefixes.  A raised get, a missing
entry, and an unparsable payload all yield the empty set. -/
def get_registered_pfxs (env : Env) (st : KStore) : List String :=
  match kget env st (registryService, registryKey) with
  | some (some (.list l)) => l.dedup
  | _ => []

/-- CredentialManager._save_registered_prefixes: a raised set is swallowed. -/
def save_registered_pfxs (env : Env) (st : KStore) (ps : List String) : KStore :=
  match kset env st (registryService, registryKey) (.list ps) with
  | some st' => st'
  | none => st

/-- CredentialManager._register_prefix. -/
def register_pfx (env : Env) (st : KStore) (p : String) : KStore :=
  let ps := get_registered_pfxs env st
  if p ∈ ps then st else save_registered_pfxs env st (ps ++ [p])

/-- Reading the raw refs payload, shared by the three reference functions:
outer `none` = get raised or json.loads raised (caught by each caller);
`some none` = entry absent/falsy; `some (some l)` = the stored list. -/
def readRefsRaw (env : Env) (st : KStore) (p : String) :
    Option (Option (List String)) :=
  match kget env st (registryService, refsKey p) with
  | none => none
  | some none => some none
  | some (some (.str _)) => none
  | some (some (.list l)) => some (some l)

/-- CredentialManager._store_credential_reference.  All exceptions are
caught and swallowed; the write happens even when the ref is already
present (Python rewrites the serialized set unconditionally). -/
def store_credential_reference (env : Env) (st : KStore) (p s v : String) :
    KStore :=
  match readRefsRaw env st p with
  | none => st
  | some ex =>
    let refs := match ex with
      | none => []
      | some l => l.dedup
    let refs' := if encodeRef s v ∈ refs then refs
      else refs ++ [encodeRef s v]
    match kset env st (registryService, refsKey p) (.list refs') with
    | some st' => st'
    | none => st

/-- CredentialManager._remove_credential_reference.  When the remaining set
is empty the registry entry itself is deleted (inner try/except pass). -/
def remove_credential_reference (env : Env) (st : KStore) (p s v : String) :
    KStore :=
  match readRefsRaw env st p with
  | none => st
  | some none => st
  | some (some l) =>
    let refs := l.dedup
    let refs' := refs.filter (fun r => r ≠ encodeRef s v)
    if refs' = [] then
      match kdel env st (registryService, refsKey p) with
      | .ok st' => st'
      | _ => st
    else
      match kset env st (registryService, refsKey p) (.list refs') with
      | some st' => st'
      | none => st

/-- CredentialManager.retrieve: reads the user key only; any exception
yields None.  (A Val.list at a user key cannot arise from the modelled
operations, since user service names contain a dot and the registry service
name does not; the `none` answer there totalizes the match.) -/
def retrieve_op (env : Env) (st : KStore) (p s v : String) : Option String :=
  match kget env st (userKey p s v) with
  | some (some (.str c)) => some c
  | _ => none

/-- CredentialManager.store: set_password first; only on success are the
prefix registration and the reference registration run (both swallow their
own failures), and True is returned. -/
def store_op (env : Env) (st : KStore) (p s v c : String) : KStore × Bool :=
  match kset env st (userKey p s v) (.str c) with
  | none => (st, false)
  | some st1 =>
    let st2 := register_pfx env st1 p
    let st3 := store_credential_reference env st2 p s v
    (st3, true)

/-- CredentialManager.delete: on PasswordDeleteError (absent entry) or any
other exception the function returns False WITHOUT touching the registry;
only a successful keyring delete reaches _remove_credential_reference. -/
def delete_op (env : Env) (st : KStore) (p s v : String) : KStore × Bool :=
  match kdel env st (userKey p s v) with
  | .ok st1 => (remove_credential_reference env st1 p s v, true)
  | .notFound => (st, false)
  | .err => (st, false)

/-- One iteration of the list_credentials loop over a raw ref string. -/
def list_step (env : Env) (p : String)
    (acc : KStore × List (String × String)) (r : String) :
    KStore × List (String × String) :=
  if hasBar r then
    let sv := splitRef r
    if (retrieve_op env acc.1 p sv.1 sv.2).isSome then
      (acc.1, acc.2 ++ [sv])
    else
      (remove_credential_reference env acc.1 p sv.1 sv.2, acc.2)
  else acc

/-- CredentialManager.list_credentials: read the raw stored ref list (no
set() here, unlike the writers), verify each decodable ref via retrieve,
prune stale refs, and return the surviving pairs sorted. -/
def list_credentials_op (env : Env) (st : KStore) (p : String) :
    KStore × List (String × String) :=
  match readRefsRaw env st p with
  | none => (st, [])
  | some none => (st, [])
  | some (some l) =>
    let r := l.foldl (list_step env p) (st, [])
    (r.1, sortPairs r.2)

/-- CredentialManager.list_all_prefixes. -/
def list_all_pfxs (env : Env) (st : KStore) : List String :=
  sortStrings (get_registered_pfxs env st)

/-- CredentialManager.delete_prefix on the force=True path (the non-force
path only adds an interactive confirmation in the CLI collaborator, which
the spec excludes from the core).  Snapshot via the self-healing
list_credentials, delete each, then unconditionally drop the prefix from
the registry and delete its reference entry; always returns True. -/
def delete_pfx (env : Env) (st : KStore) (p : String) : KStore × Bool :=
  let lc := list_credentials_op env st p
  let std := lc.2.foldl (fun stacc sv => (delete_op env stacc p sv.1 sv.2).1) lc.1
  let ps := (get_registered_pfxs env std).filter (fun q => q ≠ p)
  let st2 := save_registered_pfxs env std ps
  let st3 :=
    match kdel env st2 (registryService, refsKey p) with
    | .ok st' => st'
    | _ => st2
  (st3, true)

/-- The ref strings currently recorded in the registry for p ([] when the
entry is absent or not a list payload). -/
def regRefsNow (st : KStore) (p : String) : List String :=
  match kfind st (registryService, refsKey p) with
  | some (.list l) => l
  | _ => []

/-- AlternativeStorage's on-disk registry document
`{ "prefixes": [...], "credentials": { prefix: [refs] } }`; the file
read/write (get_registry / save_registry, both of which swallow I/O errors)
is modelled as the in-memory document transform.  Field names: pfxs =
"prefixes", creds = "credentials". -/
structure FsRegistry where
  pfxs : List String
  creds : List (String × List String)
deriving DecidableEq

/-- Dictionary lookup `registry["credentials"].get(p)`. -/
def credsFind (creds : List (String × List String)) (p : String) :
    Option (List String) :=
  match creds with
  | [] => none
  | (q, l) :: rest => if q = p then some l else credsFind rest p

/-- Dictionary update `registry["credentials"][p] = l`. -/
def credsSet (creds : List (String × List String)) (p : String)
    (l : List String) : List (String × List String) :=
  (p, l) :: creds.filter (fun e => e.1 ≠ p)

/-- Dictionary removal `del registry["credentials"][p]`. -/
def credsErase (creds : List (String × List String)) (p : String) :
    List (String × List String) :=
  creds.filter (fun e => e.1 ≠ p)

/-- AlternativeStorage.register_credential. -/
def register_credential (reg : FsRegistry) (p s v : String) : FsRegistry :=
  let pfxs' := if p ∈ reg.pfxs then reg.pfxs else reg.pfxs ++ [p]
  let cur := match credsFind reg.creds p with
    | some l => l
    | none => []
  let cr := encodeRef s v
  let cur' := if cr ∈ cur then cur else cur ++ [cr]
  { pfxs := pfxs', creds := credsSet reg.creds p cur' }

/-- AlternativeStorage.unregister_credential.  Python list.remove drops the
FIRST occurrence (List.erase); when the per-prefix list empties, the source
also removes the prefix from the "prefixes" list. -/
def unregister_credential (reg : FsRegistry) (p s v : String) : FsRegistry :=
  match credsFind reg.creds p with
  | none => reg
  | some l =>
    let cr := encodeRef s v
    if cr ∈ l then
      let l' := l.erase cr
      if l' = [] then
        { pfxs := reg.pfxs.erase p, creds := credsErase reg.creds p }
      else
        { reg with creds := credsSet reg.creds p l' }
    else reg

/-- AlternativeStorage.list_prefixes. -/
def fs_list_pfxs (reg : FsRegistry) : List String :=
  sortStrings reg.pfxs

/-- AlternativeStorage.list_credentials: decode the bar-containing refs and
sort; no verification against the keyring in this backend. -/
def fs_list_credentials (reg : FsRegistry) (p : String) :
    List (String × String) :=
  match credsFind reg.creds p with
  | none => []
  | some l => sortPairs ((l.filter hasBar).map splitRef)

/-- A ref string together with its liveness in a fixed state: `some sv`
when it decodes to sv and retrieve succeeds for sv, `none` otherwise. -/
def aliveInW (env : Env) (st : KStore) (p : String) (r : String) :
    Option (String × String) :=
  match decodeRef r with
  | some sv => if (retrieve_op env st p sv.1 sv.2).isSome then some sv else none
  | none => none

/-- The all-succeed failure schedule, used by concrete witnesses. -/
def env0 : Env := ⟨fun _ => false, fun _ => false, fun _ => false⟩

/-- A schedule where every registry-service keyring call fails while user
keys work, used to witness that registry failures are swallowed. -/
def envRegFail : Env :=
  ⟨fun k => decide (k.1 = registryService),
   fun k => decide (k.1 = registryService),
   fun k => decide (k.1 = registryService)⟩

/-- Modelled from the spec words, for comparison with the code:
the character class `[A-Za-z0-9._-]` that the spec says accepted
prefixes are drawn from. -/
def spec_allowed_char (c : Char) : Bool :=
  ('A' ≤ c && c ≤ 'Z') || ('a' ≤ c && c ≤ 'z') || ('0' ≤ c && c ≤ '9') ||
  c == '.' || c == '-' || c == '_'

/-- The per-prefix ref list of the file-backed registry document
(`registry["credentials"].get(p, [])`). -/
def fsCredsOf (reg : FsRegistry) (p : String) : List String :=
  match credsFind reg.creds p with
  | some l => l
  | none => []

theorem kfind_kinsert_self (st : KStore) (k : KKey) (v : Val) :
    kfind (kinsert st k v) k = some v := by
  simp [kinsert, kfind]

theorem kfind_filter_ne (st : KStore) (k k' : KKey) (h : k' ≠ k) :
    kfind (st.filter (fun e => e.1 ≠ k)) k' = kfind st k' := by
  induction st with
  | nil => rfl
  | cons a rest ih =>
    obtain ⟨ak, av⟩ := a
    rw [List.filter_cons]
    by_cases ha : ak = k
    · rw [if_neg (by simp [ha])]
      have hne : ¬ (ak = k') := fun hh => h (hh ▸ ha)
      conv_rhs => rw [show kfind ((ak, av) :: rest) k' =
        (if ak = k' then some av else kfind rest k') from rfl]
      rw [if_neg hne]
      exact ih
    · rw [if_pos (by simp [ha])]
      conv_rhs => rw [show kfind ((ak, av) :: rest) k' =
        (if ak = k' then some av else kfind rest k') from rfl]
      conv_lhs => rw [show kfind ((ak, av) :: rest.filter (fun e => e.1 ≠ k)) k' =
        (if ak = k' then some av else kfind (rest.filter (fun e => e.1 ≠ k)) k') from rfl]
      rw [ih]

theorem kfind_kinsert_ne (st : KStore) (k k' : KKey) (v : Val) (h : k' ≠ k) :
    kfind (kinsert st k v) k' = kfind st k' := by
  have hk : ¬ (k = k') := fun hh => h hh.symm
  show kfind ((k, v) :: st.filter (fun e => e.1 ≠ k)) k' = kfind st k'
  rw [show kfind ((k, v) :: st.filter (fun e => e.1 ≠ k)) k' =
    (if k = k' then some v else kfind (st.filter (fun e => e.1 ≠ k)) k') from rfl]
  rw [if_neg hk]
  exact kfind_filter_ne st k k' h

theorem kfind_kerase_self (st : KStore) (k : KKey) :
    kfind (kerase st k) k = none := by
  induction st with
  | nil => rfl
  | cons a rest ih =>
    obtain ⟨ak, av⟩ := a
    show kfind (((ak, av) :: rest).filter (fun e => e.1 ≠ k)) k = none
    rw [List.filter_cons]
    by_cases ha : ak = k
    · rw [if_neg (by simp [ha])]
      exact ih
    · rw [if_pos (by simp [ha])]
      rw [show kfind ((ak, av) :: rest.filter (fun e => e.1 ≠ k)) k =
        (if ak = k then some av else kfind (rest.filter (fun e => e.1 ≠ k)) k) from rfl]
      rw [if_neg ha]
      exact ih

theorem kfind_kerase_ne (st : KStore) (k k' : KKey) (h : k' ≠ k) :
    kfind (kerase st k) k' = kfind st k' :=
  kfind_filter_ne st k k' h

theorem data_make_service_name (p s : String) :
    (make_service_name p s).data = p.data ++ ('.' :: s.data) := by
  show (p ++ "." ++ s).data = _
  rw [String.data_append, String.data_append, List.append_assoc]
  rfl

theorem make_service_name_ne_registryService (p s : String) :
    make_service_name p s ≠ registryService := by
  intro h
  have hd := congrArg String.data h
  rw [data_make_service_name] at hd
  have hmem : '.' ∈ registryService.data := by
    rw [← hd]; simp
  revert hmem; decide

theorem userKey_ne_registry (p s v : String) (x : String) :
    userKey p s v ≠ (registryService, x) := by
  intro h
  exact make_service_name_ne_registryService p s (congrArg Prod.fst h)

theorem refsKey_ne_registryKey (p : String) : refsKey p ≠ registryKey := by
  intro h
  have hd : ("_refs_" ++ p).data = "prefixes".data := congrArg String.data h
  rw [String.data_append] at hd
  have e1 : "_refs_".data = ['_', 'r', 'e', 'f', 's', '_'] := rfl
  have e2 : "prefixes".data = ['p', 'r', 'e', 'f', 'i', 'x', 'e', 's'] := rfl
  rw [e1, e2] at hd
  simp at hd

theorem regKey_ne_refsKey (p : String) :
    ((registryService, registryKey) : KKey) ≠ (registryService, refsKey p) := by
  intro h
  exact refsKey_ne_registryKey p ((congrArg Prod.snd h).symm)

theorem takeWhile_append_stop (c0 : Char) (l m : List Char)
    (h : ∀ a ∈ l, a ≠ c0) :
    (l ++ c0 :: m).takeWhile (fun c => c != c0) = l := by
  induction l with
  | nil => simp [List.takeWhile_cons]
  | cons a as ih =>
    have ha : a ≠ c0 := h a (by simp)
    simp only [List.cons_append, List.takeWhile_cons]
    simp [ha, ih (fun b hb => h b (by simp [hb]))]

theorem dropWhile_append_stop (c0 : Char) (l m : List Char)
    (h : ∀ a ∈ l, a ≠ c0) :
    (l ++ c0 :: m).dropWhile (fun c => c != c0) = c0 :: m := by
  induction l with
  | nil => simp [List.dropWhile_cons]
  | cons a as ih =>
    have ha : a ≠ c0 := h a (by simp)
    simp only [List.cons_append, List.dropWhile_cons]
    simp [ha, ih (fun b hb => h b (by simp [hb]))]

theorem dropWhile_head_of_contains (c0 : Char) (l : List Char)
    (h : l.contains c0 = true) :
    ∃ t, l.dropWhile (fun c => c != c0) = c0 :: t := by
  induction l with
  | nil => simp at h
  | cons a as ih =>
    by_cases ha : a = c0
    · subst ha
      exact ⟨as, by simp [List.dropWhile_cons]⟩
    · have h' : as.contains c0 = true := by
        simp only [List.contains_cons] at h
        rcases Bool.or_eq_true_iff.mp h with h1 | h1
        · exact absurd (beq_iff_eq.mp h1).symm ha
        · exact h1
      obtain ⟨t, ht⟩ := ih h'
      exact ⟨t, by simp [List.dropWhile_cons, ha, ht]⟩

theorem encodeRef_splitRef (r : String) (h : hasBar r = true) :
    encodeRef (splitRef r).1 (splitRef r).2 = r := by
  obtain ⟨t, ht⟩ := dropWhile_head_of_contains '|' r.data h
  apply String.ext
  show ((⟨r.data.takeWhile (fun c => c != '|')⟩ : String) ++ "|" ++
      (⟨(r.data.dropWhile (fun c => c != '|')).drop 1⟩ : String)).data = r.data
  rw [String.data_append, String.data_append, List.append_assoc]
  show r.data.takeWhile (fun c => c != '|') ++
      ('|' :: (r.data.dropWhile (fun c => c != '|')).drop 1) = r.data
  rw [ht]
  show r.data.takeWhile (fun c => c != '|') ++ ('|' :: t) = r.data
  rw [← ht]
  exact List.takeWhile_append_dropWhile _ _

theorem decodeRef_eq_encodeRef (r : String) (sv : String × String)
    (h : decodeRef r = some sv) : r = encodeRef sv.1 sv.2 := by
  unfold decodeRef at h
  by_cases hb : hasBar r = true
  · rw [if_pos hb] at h
    have hsv := Option.some_injective _ h
    rw [← hsv]
    exact (encodeRef_splitRef r hb).symm
  · rw [if_neg hb] at h
    cases h

theorem data_encodeRef (s v : String) :
    (encodeRef s v).data = s.data ++ '|' :: v.data := by
  show (s ++ "|" ++ v).data = _
  rw [String.data_append, String.data_append, List.append_assoc]
  rfl

theorem splitRef_encodeRef (s v : String) (hs : ∀ c ∈ s.data, c ≠ '|') :
    splitRef (encodeRef s v) = (s, v) := by
  unfold splitRef
  rw [data_encodeRef]
  rw [takeWhile_append_stop '|' s.data v.data hs,
    dropWhile_append_stop '|' s.data v.data hs]
  show (s, (⟨v.data⟩ : String)) = (s, v)
  rfl

theorem hasBar_encodeRef (s v : String) : hasBar (encodeRef s v) = true := by
  unfold hasBar
  rw [data_encodeRef]
  simp

theorem decodeRef_encodeRef (s v : String) (hs : ∀ c ∈ s.data, c ≠ '|') :
    decodeRef (encodeRef s v) = some (s, v) := by
  unfold decodeRef
  rw [if_pos (hasBar_encodeRef s v), splitRef_encodeRef s v hs]

theorem listLeB_total (a b : List Char) :
    listLeB a b = true ∨ listLeB b a = true := by
  induction a generalizing b with
  | nil => exact Or.inl rfl
  | cons x xs ih =>
    cases b with
    | nil => exact Or.inr rfl
    | cons y ys =>
      by_cases hxy : x = y
      · subst hxy
        rcases ih ys with h1 | h1
        · exact Or.inl (by simpa [listLeB] using h1)
        · exact Or.inr (by simpa [listLeB] using h1)
      · rcases lt_trichotomy x y with hlt | heq | hgt
        · exact Or.inl (by simp [listLeB, hxy, hlt])
        · exact absurd heq hxy
        · exact Or.inr (by simp [listLeB, Ne.symm hxy, hgt])

theorem listLeB_antisymm (a b : List Char)
    (h1 : listLeB a b = true) (h2 : listLeB b a = true) : a = b := by
  induction a generalizing b with
  | nil =>
    cases b with
    | nil => rfl
    | cons y ys => simp [listLeB] at h2
  | cons x xs ih =>
    cases b with
    | nil => simp [listLeB] at h1
    | cons y ys =>
      by_cases hxy : x = y
      · subst hxy
        simp only [listLeB, if_pos rfl] at h1 h2
        rw [ih ys h1 h2]
      · simp only [listLeB, if_neg hxy, decide_eq_true_eq] at h1
        simp only [listLeB, if_neg (Ne.symm hxy), decide_eq_true_eq] at h2
        exact absurd h2 (not_lt_of_lt h1)

theorem listLeB_trans (a b c : List Char)
    (h1 : listLeB a b = true) (h2 : listLeB b c = true) :
    listLeB a c = true := by
  induction a generalizing b c with
  | nil => rfl
  | cons x xs ih =>
    cases b with
    | nil => simp [listLeB] at h1
    | cons y ys =>
      cases c with
      | nil => simp [listLeB] at h2
      | cons z zs =>
        by_cases hxy : x = y
        · subst hxy
          simp only [listLeB, if_pos rfl] at h1
          by_cases hyz : x = z
          · subst hyz
            simp only [listLeB, if_pos rfl] at h2 ⊢
            exact ih ys zs h1 h2
          · simp only [listLeB, if_neg hyz] at h2 ⊢
            exact h2
        · simp only [listLeB, if_neg hxy, decide_eq_true_eq] at h1
          by_cases hyz : y = z
          · have hxz : ¬ (x = z) := fun hh => hxy (hh.trans hyz.symm)
            have hlt : x < z := hyz ▸ h1
            simp only [listLeB, if_neg hxz, decide_eq_true_eq]
            exact hlt
          · simp only [listLeB, if_neg hyz, decide_eq_true_eq] at h2
            have hlt : x < z := lt_trans h1 h2
            simp only [listLeB, if_neg (ne_of_lt hlt), decide_eq_true_eq]
            exact hlt

theorem strLeB_total (a b : String) : strLeB a b = true ∨ strLeB b a = true :=
  listLeB_total a.data b.data

theorem strLeB_antisymm (a b : String)
    (h1 : strLeB a b = true) (h2 : strLeB b a = true) : a = b :=
  String.ext (listLeB_antisymm a.data b.data h1 h2)

theorem strLeB_trans (a b c : String)
    (h1 : strLeB a b = true) (h2 : strLeB b c = true) : strLeB a c = true :=
  listLeB_trans a.data b.data c.data h1 h2

theorem pairLeB_total (x y : String × String) :
    pairLeB x y = true ∨ pairLeB y x = true := by
  unfold pairLeB
  by_cases h : x.1 = y.1
  · rw [if_pos h, if_pos h.symm]
    exact strLeB_total x.2 y.2
  · rw [if_neg h, if_neg (Ne.symm h)]
    exact strLeB_total x.1 y.1

theorem pairLeB_trans (x y z : String × String)
    (h1 : pairLeB x y = true) (h2 : pairLeB y z = true) :
    pairLeB x z = true := by
  unfold pairLeB at h1 h2 ⊢
  by_cases hxy : x.1 = y.1
  · rw [if_pos hxy] at h1
    by_cases hyz : y.1 = z.1
    · rw [if_pos hyz] at h2
      rw [if_pos (hxy.trans hyz)]
      exact strLeB_trans _ _ _ h1 h2
    · rw [if_neg hyz] at h2
      rw [if_neg (fun hh => hyz (hxy ▸ hh)), hxy]
      exact h2
  · rw [if_neg hxy] at h1
    by_cases hyz : y.1 = z.1
    · rw [if_neg (fun hh => hxy (hyz ▸ hh)), ← hyz]
      exact h1
    · rw [if_neg hyz] at h2
      have hxz : strLeB x.1 z.1 = true := strLeB_trans _ _ _ h1 h2
      have hne : ¬ (x.1 = z.1) := by
        intro hh
        exact hxy (strLeB_antisymm _ _ h1 (hh ▸ h2))
      rw [if_neg hne]
      exact hxz

theorem insertLe_perm {α : Type} (le : α → α → Bool) (x : α) (l : List α) :
    (insertLe le x l).Perm (x :: l) := by
  induction l with
  | nil => exact List.Perm.refl _
  | cons y ys ih =>
    unfold insertLe
    by_cases h : le x y = true
    · rw [if_pos h]
    · rw [if_neg h]
      exact (ih.cons y).trans (List.Perm.swap x y ys)

theorem sortByLe_perm {α : Type} (le : α → α → Bool) (l : List α) :
    (sortByLe le l).Perm l := by
  induction l with
  | nil => exact List.Perm.refl _
  | cons x xs ih =>
    show (insertLe le x (sortByLe le xs)).Perm (x :: xs)
    exact (insertLe_perm le x (sortByLe le xs)).trans (ih.cons x)

theorem insertLe_sorted {α : Type} (le : α → α → Bool)
    (htot : ∀ a b, le a b = true ∨ le b a = true)
    (htr : ∀ a b c, le a b = true → le b c = true → le a c = true)
    (x : α) (l : List α) (h : l.Pairwise (fun a b => le a b = true)) :
    (insertLe le x l).Pairwise (fun a b => le a b = true) := by
  induction l with
  | nil => simp [insertLe]
  | cons y ys ih =>
    rw [List.pairwise_cons] at h
    obtain ⟨h1, h2⟩ := h
    unfold insertLe
    by_cases hxy : le x y = true
    · rw [if_pos hxy]
      rw [List.pairwise_cons]
      refine ⟨?_, List.pairwise_cons.mpr ⟨h1, h2⟩⟩
      intro b hb
      rcases List.mem_cons.mp hb with rfl | hb'
      · exact hxy
      · exact htr x y b hxy (h1 b hb')
    · rw [if_neg hxy]
      have hyx : le y x = true := (htot x y).resolve_left hxy
      rw [List.pairwise_cons]
      refine ⟨?_, ih h2⟩
      intro b hb
      have hb' : b = x ∨ b ∈ ys := by
        have := (insertLe_perm le x ys).mem_iff.mp hb
        simpa using this
      rcases hb' with rfl | hb'
      · exact hyx
      · exact h1 b hb'

theorem sortByLe_sorted {α : Type} (le : α → α → Bool)
    (htot : ∀ a b, le a b = true ∨ le b a = true)
    (htr : ∀ a b c, le a b = true → le b c = true → le a c = true)
    (l : List α) :
    (sortByLe le l).Pairwise (fun a b => le a b = true) := by
  induction l with
  | nil => exact List.Pairwise.nil
  | cons x xs ih =>
    show (insertLe le x (sortByLe le xs)).Pairwise (fun a b => le a b = true)
    exact insertLe_sorted le htot htr x (sortByLe le xs) ih

theorem sortPairs_perm (l : List (String × String)) : (sortPairs l).Perm l :=
  sortByLe_perm pairLeB l

theorem sortPairs_sorted (l : List (String × String)) :
    (sortPairs l).Pairwise (fun a b => pairLeB a b = true) :=
  sortByLe_sorted pairLeB pairLeB_total pairLeB_trans l

theorem sortStrings_perm (l : List String) : (sortStrings l).Perm l :=
  sortByLe_perm strLeB l

theorem mem_sortStrings (a : String) (l : List String) :
    a ∈ sortStrings l ↔ a ∈ l :=
  (sortStrings_perm l).mem_iff

theorem register_pfx_kfind (env : Env) (st : KStore) (p : String) (k : KKey)
    (hk : k ≠ ((registryService, registryKey) : KKey)) :
    kfind (register_pfx env st p) k = kfind st k := by
  show kfind (if p ∈ get_registered_pfxs env st then st
    else save_registered_pfxs env st (get_registered_pfxs env st ++ [p])) k = kfind st k
  by_cases hm : p ∈ get_registered_pfxs env st
  · rw [if_pos hm]
  · rw [if_neg hm]
    unfold save_registered_pfxs kset
    by_cases hf : env.setFails (registryService, registryKey) = true
    · rw [if_pos hf]
    · rw [if_neg hf]
      exact kfind_kinsert_ne st _ k _ hk

theorem match_kset_kfind (env : Env) (st : KStore) (k0 : KKey) (v0 : Val)
    (k : KKey) (hk : k ≠ k0) :
    kfind (match kset env st k0 v0 with
      | some st' => st'
      | none => st) k = kfind st k := by
  unfold kset
  by_cases hf : env.setFails k0 = true
  · rw [if_pos hf]
  · rw [if_neg hf]
    exact kfind_kinsert_ne st k0 k v0 hk

theorem match_kdel_kfind (env : Env) (st : KStore) (k0 : KKey)
    (k : KKey) (hk : k ≠ k0) :
    kfind (match kdel env st k0 with
      | .ok st' => st'
      | _ => st) k = kfind st k := by
  unfold kdel
  by_cases hf : env.delFails k0 = true
  · rw [if_pos hf]
  · rw [if_neg hf]
    cases hfind : kfind st k0 with
    | none => rfl
    | some vv => exact kfind_kerase_ne st k0 k hk

theorem store_ref_kfind (env : Env) (st : KStore) (p s v : String) (k : KKey)
    (hk : k ≠ ((registryService, refsKey p) : KKey)) :
    kfind (store_credential_reference env st p s v) k = kfind st k := by
  unfold store_credential_reference
  split
  · rfl
  · exact match_kset_kfind env st _ _ k hk

theorem rcr_kfind (env : Env) (st : KStore) (p s v : String) (k : KKey)
    (hk : k ≠ ((registryService, refsKey p) : KKey)) :
    kfind (remove_credential_reference env st p s v) k = kfind st k := by
  unfold remove_credential_reference
  split
  · rfl
  · rfl
  · dsimp only
    split
    · exact match_kdel_kfind env st _ k hk
    · exact match_kset_kfind env st _ _ k hk

theorem retrieve_op_congr (env : Env) (st st' : KStore) (p s v : String)
    (h : kfind st' (userKey p s v) = kfind st (userKey p s v)) :
    retrieve_op env st' p s v = retrieve_op env st p s v := by
  unfold retrieve_op kget
  rw [h]

theorem rcr_retrieve (env : Env) (st : KStore) (p a b s v : String) :
    retrieve_op env (remove_credential_reference env st p a b) p s v =
      retrieve_op env st p s v :=
  retrieve_op_congr env st _ p s v
    (rcr_kfind env st p a b _ (userKey_ne_registry p s v _))

theorem readRefsRaw_some_list (env : Env) (st : KStore) (p : String)
    (l : List String) (h : readRefsRaw env st p = some (some l)) :
    env.getFails (registryService, refsKey p) = false ∧
      kfind st (registryService, refsKey p) = some (.list l) := by
  unfold readRefsRaw kget at h
  by_cases hg : env.getFails (registryService, refsKey p) = true
  · rw [if_pos hg] at h
    simp at h
  · rw [if_neg hg] at h
    cases hf : kfind st (registryService, refsKey p) with
    | none => rw [hf] at h; simp at h
    | some vv =>
      cases vv with
      | str c => rw [hf] at h; simp at h
      | list l2 =>
        rw [hf] at h
        simp at h
        simp at hg
        exact ⟨hg, by rw [h]⟩

theorem readRefsRaw_some_none (env : Env) (st : KStore) (p : String)
    (h : readRefsRaw env st p = some none) :
    kfind st (registryService, refsKey p) = none := by
  unfold readRefsRaw kget at h
  by_cases hg : env.getFails (registryService, refsKey p) = true
  · rw [if_pos hg] at h
    simp at h
  · rw [if_neg hg] at h
    cases hf : kfind st (registryService, refsKey p) with
    | none => rfl
    | some vv =>
      cases vv with
      | str c => rw [hf] at h; simp at h
      | list l2 => rw [hf] at h; simp at h

theorem readRefsRaw_none_cases (env : Env) (st : KStore) (p : String)
    (hg : env.getFails (registryService, refsKey p) = false)
    (h : readRefsRaw env st p = none) :
    ∃ c, kfind st (registryService, refsKey p) = some (.str c) := by
  unfold readRefsRaw kget at h
  rw [hg] at h
  simp only [Bool.false_eq_true, if_false] at h
  cases hf : kfind st (registryService, refsKey p) with
  | none => rw [hf] at h; simp at h
  | some vv =>
    cases vv with
    | str c => exact ⟨c, rfl⟩
    | list l2 => rw [hf] at h; simp at h

theorem readRefsRaw_of_kfind_list (env : Env) (st : KStore) (p : String)
    (l : List String)
    (hg : env.getFails (registryService, refsKey p) = false)
    (hf : kfind st (registryService, refsKey p) = some (.list l)) :
    readRefsRaw env st p = some (some l) := by
  unfold readRefsRaw kget
  rw [hg]
  simp only [Bool.false_eq_true, if_false]
  rw [hf]

theorem readRefsRaw_of_kfind_none (env : Env) (st : KStore) (p : String)
    (hg : env.getFails (registryService, refsKey p) = false)
    (hf : kfind st (registryService, refsKey p) = none) :
    readRefsRaw env st p = some none := by
  unfold readRefsRaw kget
  rw [hg]
  simp only [Bool.false_eq_true, if_false]
  rw [hf]

theorem readRefsRaw_of_getFails (env : Env) (st : KStore) (p : String)
    (hg : env.getFails (registryService, refsKey p) = true) :
    readRefsRaw env st p = none := by
  unfold readRefsRaw kget
  rw [hg]
  simp

theorem rcr_not_mem (env : Env) (st : KStore) (p s v : String) (e : String)
    (h : e ∉ regRefsNow st p) :
    e ∉ regRefsNow (remove_credential_reference env st p s v) p := by
  unfold remove_credential_reference
  split
  · exact h
  · exact h
  · next l heq =>
    have hfind := (readRefsRaw_some_list env st p l heq).2
    have hl : e ∉ l := by
      unfold regRefsNow at h
      rw [hfind] at h
      exact h
    dsimp only
    split
    · unfold kdel
      by_cases hdf : env.delFails (registryService, refsKey p) = true
      · rw [if_pos hdf]
        exact h
      · rw [if_neg hdf, hfind]
        unfold regRefsNow
        rw [kfind_kerase_self]
        simp
    · unfold kset
      by_cases hsf : env.setFails (registryService, refsKey p) = true
      · rw [if_pos hsf]
        exact h
      · rw [if_neg hsf]
        unfold regRefsNow
        rw [kfind_kinsert_self]
        intro hmem
        have := List.mem_dedup.mp (List.mem_filter.mp hmem).1
        exact hl this

theorem rcr_removes (env : Env) (st : KStore) (p s v : String)
    (hg : env.getFails (registryService, refsKey p) = false)
    (hs : env.setFails (registryService, refsKey p) = false)
    (hd : env.delFails (registryService, refsKey p) = false) :
    encodeRef s v ∉ regRefsNow (remove_credential_reference env st p s v) p := by
  unfold remove_credential_reference
  split
  · next heq =>
    obtain ⟨c, hc⟩ := readRefsRaw_none_cases env st p hg heq
    unfold regRefsNow
    rw [hc]
    simp
  · next heq =>
    have hc := readRefsRaw_some_none env st p heq
    unfold regRefsNow
    rw [hc]
    simp
  · next l heq =>
    have hfind := (readRefsRaw_some_list env st p l heq).2
    dsimp only
    split
    · unfold kdel
      rw [hd]
      simp only [Bool.false_eq_true, if_false]
      rw [hfind]
      unfold regRefsNow
      rw [kfind_kerase_self]
      simp
    · unfold kset
      rw [hs]
      simp only [Bool.false_eq_true, if_false]
      unfold regRefsNow
      rw [kfind_kinsert_self]
      intro hmem
      have := (List.mem_filter.mp hmem).2
      simp at this

theorem store_ref_spec (env : Env) (st : KStore) (p s v : String)
    (hg : env.getFails (registryService, refsKey p) = false)
    (hs : env.setFails (registryService, refsKey p) = false)
    (hnc : ∀ c, kfind st (registryService, refsKey p) ≠ some (.str c)) :
    ∃ rs, kfind (store_credential_reference env st p s v)
        (registryService, refsKey p) = some (.list rs) ∧
      rs.Nodup ∧ encodeRef s v ∈ rs := by
  cases hf : kfind st (registryService, refsKey p) with
  | none =>
    unfold store_credential_reference
    rw [readRefsRaw_of_kfind_none env st p hg hf]
    refine ⟨[encodeRef s v], ?_, by simp, by simp⟩
    show kfind (match kset env st (registryService, refsKey p)
      (.list (if encodeRef s v ∈ ([] : List String) then []
        else [] ++ [encodeRef s v])) with
      | some st' => st'
      | none => st) (registryService, refsKey p) = some (.list [encodeRef s v])
    unfold kset
    rw [hs]
    simp only [Bool.false_eq_true, if_false]
    rw [kfind_kinsert_self]
    simp
  | some vv =>
    cases vv with
    | str c => exact absurd hf (hnc c)
    | list l =>
      unfold store_credential_reference
      rw [readRefsRaw_of_kfind_list env st p l hg hf]
      by_cases hm : encodeRef s v ∈ l.dedup
      · refine ⟨l.dedup, ?_, List.nodup_dedup l, hm⟩
        show kfind (match kset env st (registryService, refsKey p)
          (.list (if encodeRef s v ∈ l.dedup then l.dedup
            else l.dedup ++ [encodeRef s v])) with
          | some st' => st'
          | none => st) (registryService, refsKey p) = some (.list l.dedup)
        rw [if_pos hm]
        unfold kset
        rw [hs]
        simp only [Bool.false_eq_true, if_false]
        rw [kfind_kinsert_self]
      · refine ⟨l.dedup ++ [encodeRef s v], ?_, ?_, by simp⟩
        · show kfind (match kset env st (registryService, refsKey p)
            (.list (if encodeRef s v ∈ l.dedup then l.dedup
              else l.dedup ++ [encodeRef s v])) with
            | some st' => st'
            | none => st) (registryService, refsKey p) =
            some (.list (l.dedup ++ [encodeRef s v]))
          rw [if_neg hm]
          unfold kset
          rw [hs]
          simp only [Bool.false_eq_true, if_false]
          rw [kfind_kinsert_self]
        · rw [List.nodup_append]
          exact ⟨List.nodup_dedup l, List.nodup_singleton _,
            by simpa [List.disjoint_singleton] using hm⟩

theorem store_ref_stable (env : Env) (st : KStore) (p s v : String)
    (hg : env.getFails (registryService, refsKey p) = false)
    (hs : env.setFails (registryService, refsKey p) = false)
    (rs : List String)
    (hf : kfind st (registryService, refsKey p) = some (.list rs))
    (hnd : rs.Nodup) (hm : encodeRef s v ∈ rs) :
    kfind (store_credential_reference env st p s v)
      (registryService, refsKey p) = some (.list rs) := by
  unfold store_credential_reference
  rw [readRefsRaw_of_kfind_list env st p rs hg hf]
  show kfind (match kset env st (registryService, refsKey p)
    (.list (if encodeRef s v ∈ rs.dedup then rs.dedup
      else rs.dedup ++ [encodeRef s v])) with
    | some st' => st'
    | none => st) (registryService, refsKey p) = some (.list rs)
  rw [List.dedup_eq_self.mpr hnd, if_pos hm]
  unfold kset
  rw [hs]
  simp only [Bool.false_eq_true, if_false]
  rw [kfind_kinsert_self]

theorem list_step_fold (env : Env) (st : KStore) (p : String)
    (hg : env.getFails (registryService, refsKey p) = false)
    (hs : env.setFails (registryService, refsKey p) = false)
    (hd : env.delFails (registryService, refsKey p) = false) :
    ∀ (rs : List String) (st' : KStore) (acc : List (String × String)),
      (∀ k, k ≠ ((registryService, refsKey p) : KKey) →
        kfind st' k = kfind st k) →
      (rs.foldl (list_step env p) (st', acc)).2 =
          acc ++ rs.filterMap (aliveInW env st p)
      ∧ (∀ k, k ≠ ((registryService, refsKey p) : KKey) →
          kfind (rs.foldl (list_step env p) (st', acc)).1 k = kfind st k)
      ∧ (∀ e, e ∉ regRefsNow st' p →
          e ∉ regRefsNow (rs.foldl (list_step env p) (st', acc)).1 p)
      ∧ (∀ r ∈ rs, hasBar r = true → aliveInW env st p r = none →
          r ∉ regRefsNow (rs.foldl (list_step env p) (st', acc)).1 p) := by
  intro rs
  induction rs with
  | nil =>
    intro st' acc hag
    exact ⟨by simp, hag, fun e he => he, by simp⟩
  | cons r rest ih =>
    intro st' acc hag
    rw [List.foldl_cons]
    by_cases hb : hasBar r = true
    · by_cases hal : (retrieve_op env st p (splitRef r).1 (splitRef r).2).isSome = true
      · have hretr : retrieve_op env st' p (splitRef r).1 (splitRef r).2 =
            retrieve_op env st p (splitRef r).1 (splitRef r).2 :=
          retrieve_op_congr env st st' p _ _
            (hag _ (userKey_ne_registry p _ _ _))
        have hstep : list_step env p (st', acc) r = (st', acc ++ [splitRef r]) := by
          unfold list_step
          rw [if_pos hb]
          dsimp only
          rw [hretr, if_pos hal]
        rw [hstep]
        obtain ⟨h1, h2, h3, h4⟩ := ih st' (acc ++ [splitRef r]) hag
        have halive : aliveInW env st p r = some (splitRef r) := by
          unfold aliveInW decodeRef
          rw [if_pos hb]
          dsimp only
          rw [if_pos hal]
        refine ⟨?_, h2, h3, ?_⟩
        · rw [h1, List.filterMap_cons_some halive, List.append_assoc]
          rfl
        · intro r' hr' hbar halive'
          rcases List.mem_cons.mp hr' with rfl | hr'
          · rw [halive] at halive'
            cases halive'
          · exact h4 r' hr' hbar halive'
      · have hretr : retrieve_op env st' p (splitRef r).1 (splitRef r).2 =
            retrieve_op env st p (splitRef r).1 (splitRef r).2 :=
          retrieve_op_congr env st st' p _ _
            (hag _ (userKey_ne_registry p _ _ _))
        have hstep : list_step env p (st', acc) r =
            (remove_credential_reference env st' p (splitRef r).1 (splitRef r).2,
              acc) := by
          unfold list_step
          rw [if_pos hb]
          dsimp only
          rw [hretr, if_neg hal]
        rw [hstep]
        have hag'' : ∀ k, k ≠ ((registryService, refsKey p) : KKey) →
            kfind (remove_credential_reference env st' p (splitRef r).1
              (splitRef r).2) k = kfind st k := by
          intro k hk
          rw [rcr_kfind env st' p _ _ k hk]
          exact hag k hk
        obtain ⟨h1, h2, h3, h4⟩ :=
          ih (remove_credential_reference env st' p (splitRef r).1 (splitRef r).2)
            acc hag''
        have halive : aliveInW env st p r = none := by
          unfold aliveInW decodeRef
          rw [if_pos hb]
          dsimp only
          rw [if_neg hal]
        have hremoved : r ∉ regRefsNow (remove_credential_reference env st' p
            (splitRef r).1 (splitRef r).2) p := by
          have hx := rcr_removes env st' p (splitRef r).1 (splitRef r).2 hg hs hd
          rw [encodeRef_splitRef r hb] at hx
          exact hx
        refine ⟨?_, h2, ?_, ?_⟩
        · rw [h1, List.filterMap_cons_none halive]
        · intro e he
          exact h3 e (rcr_not_mem env st' p _ _ e he)
        · intro r' hr' hbar halive'
          rcases List.mem_cons.mp hr' with rfl | hr'
          · exact h3 r' hremoved
          · exact h4 r' hr' hbar halive'
    · have hstep : list_step env p (st', acc) r = (st', acc) := by
        unfold list_step
        rw [if_neg hb]
      rw [hstep]
      obtain ⟨h1, h2, h3, h4⟩ := ih st' acc hag
      have halive : aliveInW env st p r = none := by
        unfold aliveInW decodeRef
        rw [if_neg hb]
      refine ⟨?_, h2, h3, ?_⟩
      · rw [h1, List.filterMap_cons_none halive]
      · intro r' hr' hbar halive'
        rcases List.mem_cons.mp hr' with rfl | hr'
        · exact absurd hbar hb
        · exact h4 r' hr' hbar halive'

theorem list_credentials_eval (env : Env) (st : KStore) (p : String)
    (l : List String)
    (hl : kfind st (registryService, refsKey p) = some (.list l))
    (hg : env.getFails (registryService, refsKey p) = false)
    (hs : env.setFails (registryService, refsKey p) = false)
    (hd : env.delFails (registryService, refsKey p) = false) :
    (list_credentials_op env st p).2 =
        sortPairs (l.filterMap (aliveInW env st p))
    ∧ (∀ k, k ≠ ((registryService, refsKey p) : KKey) →
        kfind (list_credentials_op env st p).1 k = kfind st k)
    ∧ (∀ r ∈ l, hasBar r = true → aliveInW env st p r = none →
        r ∉ regRefsNow (list_credentials_op env st p).1 p) := by
  unfold list_credentials_op
  rw [readRefsRaw_of_kfind_list env st p l hg hl]
  dsimp only
  obtain ⟨h1, h2, h3, h4⟩ :=
    list_step_fold env st p hg hs hd l st [] (fun k _ => rfl)
  refine ⟨?_, h2, h4⟩
  rw [h1, List.nil_append]

theorem pyAllowed_eq_spec (c : Char) : pyAllowed c = spec_allowed_char c := rfl

/-- C7 counterexample: the claim says validation rejects exactly when the
result AFTER stripping trailing dots is empty or has a char outside
[A-Za-z0-9._-].  But the source checks emptiness BEFORE stripping: the
input "." strips to the empty string, which the claim says must be
rejected, yet _sanitize_prefix accepts it and returns the empty prefix. -/
theorem C7_sanitize_cex :
    rstripDot "." = "" ∧ sanitize_pfx "." = some "" := by
  exact ⟨rfl, rfl⟩

/-- C7 (amended): over ASCII inputs (where the model of Python str.isalnum
is exact), _sanitize_prefix rejects p exactly when p is empty AS GIVEN or
the dot-stripped result contains a character outside [A-Za-z0-9._-]; an
accepted prefix is the dot-stripped input and contains only characters of
that class, but it may be empty (when the input was a nonempty run of
dots). -/
theorem C7_sanitize_amended (p : String)
    (hascii : ∀ c ∈ p.data, c.toNat < 128) :
    (sanitize_pfx p = none ↔
      (p = "" ∨ ∃ c ∈ (rstripDot p).data, spec_allowed_char c = false))
    ∧ ∀ q, sanitize_pfx p = some q → q = rstripDot p ∧
        ∀ c ∈ q.data, spec_allowed_char c = true := by
  constructor
  · by_cases hp : p = ""
    · constructor
      · intro _
        exact Or.inl hp
      · intro _
        unfold sanitize_pfx
        rw [if_pos hp]
    · unfold sanitize_pfx
      rw [if_neg hp]
      dsimp only
      by_cases hall : (rstripDot p).data.all pyAllowed = true
      · rw [if_pos hall]
        constructor
        · intro h
          cases h
        · intro h
          exfalso
          rcases h with h | ⟨c, hc, hbad⟩
          · exact hp h
          · have hx := List.all_eq_true.mp hall c hc
            rw [pyAllowed_eq_spec] at hx
            rw [hx] at hbad
            cases hbad
      · rw [if_neg hall]
        constructor
        · intro _
          right
          have hfalse : (rstripDot p).data.all pyAllowed = false := by
            revert hall
            cases (rstripDot p).data.all pyAllowed <;> simp
          obtain ⟨c, hc, hnc⟩ := List.all_eq_false.mp hfalse
          refine ⟨c, hc, ?_⟩
          rw [← pyAllowed_eq_spec]
          revert hnc
          cases pyAllowed c <;> simp
        · intro _
          rfl
  · intro q hq
    unfold sanitize_pfx at hq
    by_cases hp : p = ""
    · rw [if_pos hp] at hq
      cases hq
    · rw [if_neg hp] at hq
      dsimp only at hq
      by_cases hall : (rstripDot p).data.all pyAllowed = true
      · rw [if_pos hall] at hq
        cases hq
        refine ⟨rfl, fun c hc => ?_⟩
        rw [← pyAllowed_eq_spec]
        exact List.all_eq_true.mp hall c hc
      · rw [if_neg hall] at hq
        cases hq

/-- Witness for C7: the ASCII input "a b" is rejected (space is outside the
class), instantiating the amended theorem. -/
theorem C7_sanitize_witness :
    (∀ c ∈ ("a b" : String).data, c.toNat < 128) ∧
    ((sanitize_pfx "a b" = none ↔
      ("a b" = "" ∨ ∃ c ∈ (rstripDot "a b").data, spec_allowed_char c = false))
    ∧ ∀ q, sanitize_pfx "a b" = some q → q = rstripDot "a b" ∧
        ∀ c ∈ q.data, spec_allowed_char c = true) :=
  ⟨by decide, C7_sanitize_amended "a b" (by decide)⟩

/-- C10 counterexample: the namespace map (p, s) ↦ p ++ "." ++ s is NOT
injective: ("app", "x.y") and ("app.x", "y") are distinct pairs that both
address the namespace "app.x.y", so operations under one valid prefix can
touch a secret of another. -/
theorem C10_namespace_cex :
    make_service_name "app" "x.y" = make_service_name "app.x" "y" ∧
    (("app", "x.y") : String × String) ≠ ("app.x", "y") := by
  exact ⟨rfl, by decide⟩

/-- C10 (amended): the namespace map is injective when restricted to
prefixes containing no dot; with dotted prefixes (which validation allows)
distinct pairs can collide, as the counterexample shows. -/
theorem C10_namespace_amended (p1 s1 p2 s2 : String)
    (h1 : ∀ c ∈ p1.data, c ≠ '.') (h2 : ∀ c ∈ p2.data, c ≠ '.')
    (heq : make_service_name p1 s1 = make_service_name p2 s2) :
    p1 = p2 ∧ s1 = s2 := by
  have hd := congrArg String.data heq
  rw [data_make_service_name, data_make_service_name] at hd
  have hp : p1.data = p2.data := by
    rw [← takeWhile_append_stop '.' p1.data s1.data h1,
      ← takeWhile_append_stop '.' p2.data s2.data h2, hd]
  have hs : ('.' :: s1.data) = ('.' :: s2.data) := by
    rw [← dropWhile_append_stop '.' p1.data s1.data h1,
      ← dropWhile_append_stop '.' p2.data s2.data h2, hd]
  exact ⟨String.ext hp, String.ext (List.cons.inj hs).2⟩

/-- Witness for the amended C10 at dot-free prefixes. -/
theorem C10_namespace_witness :
    (∀ c ∈ ("app" : String).data, c ≠ '.') ∧
    (("app" : String) = "app" ∧ ("x" : String) = "x") :=
  ⟨by decide, C10_namespace_amended "app" "x" "app" "x"
    (by decide) (by decide) rfl⟩

theorem get_registered_congr (env : Env) (st st' : KStore)
    (h : kfind st' (registryService, registryKey) =
      kfind st (registryService, registryKey)) :
    get_registered_pfxs env st' = get_registered_pfxs env st := by
  unfold get_registered_pfxs kget
  rw [h]

theorem register_pfx_mem (env : Env) (st : KStore) (p : String)
    (hg : env.getFails (registryService, registryKey) = false)
    (hs : env.setFails (registryService, registryKey) = false) :
    p ∈ get_registered_pfxs env (register_pfx env st p) := by
  show p ∈ get_registered_pfxs env (if p ∈ get_registered_pfxs env st then st
    else save_registered_pfxs env st (get_registered_pfxs env st ++ [p]))
  by_cases hm : p ∈ get_registered_pfxs env st
  · rw [if_pos hm]
    exact hm
  · rw [if_neg hm]
    unfold save_registered_pfxs kset
    rw [hs]
    simp only [Bool.false_eq_true, if_false]
    unfold get_registered_pfxs kget
    rw [hg]
    simp only [Bool.false_eq_true, if_false]
    rw [kfind_kinsert_self]
    simp

/-- C6: a successful store of value c under (p, s, v) followed immediately
by retrieve of the same triple returns c, for any keyring contents and any
failure schedule in which the user key can be read back.  The intervening
registry bookkeeping touches only registry-service keys and cannot clobber
the stored secret. -/
theorem C6_roundtrip (env : Env) (st : KStore) (p s v c : String)
    (hsucc : (store_op env st p s v c).2 = true)
    (hgu : env.getFails (userKey p s v) = false) :
    retrieve_op env (store_op env st p s v c).1 p s v = some c := by
  by_cases hsf : env.setFails (userKey p s v) = true
  · have hfail : store_op env st p s v c = (st, false) := by
      unfold store_op kset
      rw [hsf]
      rfl
    rw [hfail] at hsucc
    cases hsucc
  · have hsf' : env.setFails (userKey p s v) = false := by
      revert hsf
      cases env.setFails (userKey p s v) <;> simp
    have hst : (store_op env st p s v c).1 =
        store_credential_reference env
          (register_pfx env (kinsert st (userKey p s v) (.str c)) p) p s v := by
      unfold store_op kset
      rw [hsf']
      rfl
    rw [hst]
    have hfind : kfind (store_credential_reference env
        (register_pfx env (kinsert st (userKey p s v) (.str c)) p) p s v)
        (userKey p s v) = some (.str c) := by
      rw [store_ref_kfind env _ p s v _ (userKey_ne_registry p s v _),
        register_pfx_kfind env _ p _ (userKey_ne_registry p s v _),
        kfind_kinsert_self]
    unfold retrieve_op kget
    rw [hgu]
    simp only [Bool.false_eq_true, if_false]
    rw [hfind]

/-- Witness for C6 at a concrete store/retrieve pair. -/
theorem C6_roundtrip_witness :
    (store_op env0 [] "app" "github" "token" "abc123").2 = true ∧
    env0.getFails (userKey "app" "github" "token") = false ∧
    retrieve_op env0 (store_op env0 [] "app" "github" "token" "abc123").1
      "app" "github" "token" = some "abc123" :=
  ⟨by decide, by decide,
    C6_roundtrip env0 [] "app" "github" "token" "abc123" (by decide) (by decide)⟩

/-- C3: store writes the Secret Store first.  When the user-key write
raises, store returns False and the state — registry included — is left
completely unchanged (the returned store is literally the input).  When
the write succeeds (and the registry itself is operational, with a
well-formed refs payload), store returns True, the prefix is registered
and the reference is recorded. -/
theorem C3_store_order (env : Env) (st : KStore) (p s v c : String) :
    (env.setFails (userKey p s v) = true →
      store_op env st p s v c = (st, false))
  ∧ (env.setFails (userKey p s v) = false →
      env.getFails (registryService, registryKey) = false →
      env.setFails (registryService, registryKey) = false →
      env.getFails (registryService, refsKey p) = false →
      env.setFails (registryService, refsKey p) = false →
      (∀ cc, kfind st (registryService, refsKey p) ≠ some (.str cc)) →
      (store_op env st p s v c).2 = true ∧
      p ∈ get_registered_pfxs env (store_op env st p s v c).1 ∧
      encodeRef s v ∈ regRefsNow (store_op env st p s v c).1 p) := by
  constructor
  · intro hsf
    unfold store_op kset
    rw [hsf]
    rfl
  · intro hsf hgr hsr hgf hsfr hnc
    have hst : (store_op env st p s v c).1 =
        store_credential_reference env
          (register_pfx env (kinsert st (userKey p s v) (.str c)) p) p s v := by
      unfold store_op kset
      rw [hsf]
      rfl
    have hsucc : (store_op env st p s v c).2 = true := by
      unfold store_op kset
      rw [hsf]
      rfl
    refine ⟨hsucc, ?_, ?_⟩
    · rw [hst]
      rw [get_registered_congr env _ _
        (store_ref_kfind env _ p s v _ (regKey_ne_refsKey p))]
      exact register_pfx_mem env _ p hgr hsr
    · rw [hst]
      have hkeep : kfind (register_pfx env (kinsert st (userKey p s v) (.str c)) p)
          (registryService, refsKey p) = kfind st (registryService, refsKey p) := by
        rw [register_pfx_kfind env _ p _ (Ne.symm (regKey_ne_refsKey p)),
          kfind_kinsert_ne st _ _ _ (Ne.symm (userKey_ne_registry p s v _))]
      have hnc2 : ∀ cc, kfind (register_pfx env (kinsert st (userKey p s v)
          (.str c)) p) (registryService, refsKey p) ≠ some (.str cc) := by
        intro cc
        rw [hkeep]
        exact hnc cc
      obtain ⟨rs, hrs, hnd, hm⟩ := store_ref_spec env _ p s v hgf hsfr hnc2
      unfold regRefsNow
      rw [hrs]
      exact hm

/-- Witness for C3's success branch on the empty keyring. -/
theorem C3_store_order_witness :
    (store_op env0 [] "app" "s" "v" "c").2 = true ∧
    "app" ∈ get_registered_pfxs env0 (store_op env0 [] "app" "s" "v" "c").1 ∧
    encodeRef "s" "v" ∈ regRefsNow (store_op env0 [] "app" "s" "v" "c").1 "app" :=
  (C3_store_order env0 [] "app" "s" "v" "c").2 (by decide) (by decide) (by decide)
    (by decide) (by decide) (fun cc h => Option.noConfusion h)

/-- C4 counterexample: the claim says a not-found outcome of the keyring
delete still triggers removeReference.  In the source, delete_password
raising PasswordDeleteError jumps to the except-handler BEFORE
_remove_credential_reference runs: here the secret is absent, delete
returns False, and the recorded reference "github|token" is still in the
registry afterwards. -/
theorem C4_delete_cex :
    kfind [((registryService, refsKey "app"), Val.list ["github|token"])]
      (userKey "app" "github" "token") = none ∧
    (delete_op env0 [((registryService, refsKey "app"), Val.list ["github|token"])]
      "app" "github" "token").2 = false ∧
    encodeRef "github" "token" ∈ regRefsNow
      (delete_op env0 [((registryService, refsKey "app"),
        Val.list ["github|token"])] "app" "github" "token").1 "app" := by
  refine ⟨by decide, by decide, by decide⟩

/-- C4 (amended): delete triggers removeReference exactly when the keyring
delete SUCCEEDS; on not-found, and on any other failure, delete returns
False and the state (registry included) is literally unchanged. -/
theorem C4_delete_amended (env : Env) (st : KStore) (p s v : String) :
    (env.delFails (userKey p s v) = true → delete_op env st p s v = (st, false))
  ∧ (env.delFails (userKey p s v) = false → kfind st (userKey p s v) = none →
      delete_op env st p s v = (st, false))
  ∧ (env.delFails (userKey p s v) = false →
      ∀ vv, kfind st (userKey p s v) = some vv →
        env.getFails (registryService, refsKey p) = false →
        env.setFails (registryService, refsKey p) = false →
        env.delFails (registryService, refsKey p) = false →
        (delete_op env st p s v).2 = true ∧
        encodeRef s v ∉ regRefsNow (delete_op env st p s v).1 p) := by
  refine ⟨?_, ?_, ?_⟩
  · intro hdf
    unfold delete_op kdel
    rw [hdf]
    rfl
  · intro hdf hfind
    unfold delete_op kdel
    rw [hdf]
    simp only [Bool.false_eq_true, if_false]
    rw [hfind]
  · intro hdf vv hfind hgr hsr hdr
    have hdel : delete_op env st p s v =
        (remove_credential_reference env (kerase st (userKey p s v)) p s v,
          true) := by
      unfold delete_op kdel
      rw [hdf]
      simp only [Bool.false_eq_true, if_false]
      rw [hfind]
    rw [hdel]
    exact ⟨rfl, rcr_removes env _ p s v hgr hsr hdr⟩

/-- Witness for the amended C4 on a keyring holding the secret and its
reference: the delete succeeds and the reference is gone. -/
theorem C4_delete_witness :
    (delete_op env0 [(userKey "app" "s" "v", Val.str "x"),
      ((registryService, refsKey "app"), Val.list ["s|v"])] "app" "s" "v").2
      = true ∧
    encodeRef "s" "v" ∉ regRefsNow (delete_op env0
      [(userKey "app" "s" "v", Val.str "x"),
       ((registryService, refsKey "app"), Val.list ["s|v"])] "app" "s" "v").1
      "app" :=
  (C4_delete_amended env0 [(userKey "app" "s" "v", Val.str "x"),
      ((registryService, refsKey "app"), Val.list ["s|v"])] "app" "s" "v").2.2
    (by decide) (Val.str "x") (by decide) (by decide) (by decide) (by decide)

/-- C8: registry failures are advisory.  Whatever the failure schedule on
registry-service keys: store returns exactly the user-key write outcome
and the secret is stored on success; delete returns True exactly when the
user-key delete succeeds; a failing registry read makes list_credentials
return [] with the state untouched and makes the known-prefix read behave
as an empty registry. -/
theorem C8_registry_advisory (env : Env) (st : KStore) (p s v c : String) :
    ((store_op env st p s v c).2 = !env.setFails (userKey p s v))
  ∧ (env.setFails (userKey p s v) = false →
      kfind (store_op env st p s v c).1 (userKey p s v) = some (.str c))
  ∧ ((delete_op env st p s v).2 = true ↔
      (env.delFails (userKey p s v) = false ∧
        kfind st (userKey p s v) ≠ none))
  ∧ (env.getFails (registryService, refsKey p) = true →
      list_credentials_op env st p = (st, []))
  ∧ (env.getFails (registryService, registryKey) = true →
      get_registered_pfxs env st = []) := by
  refine ⟨?_, ?_, ?_, ?_, ?_⟩
  · by_cases hsf : env.setFails (userKey p s v) = true
    · unfold store_op kset
      rw [hsf]
      rfl
    · have hsf' : env.setFails (userKey p s v) = false := by
        revert hsf
        cases env.setFails (userKey p s v) <;> simp
      unfold store_op kset
      rw [hsf']
      rfl
  · intro hsf
    have hst : (store_op env st p s v c).1 =
        store_credential_reference env
          (register_pfx env (kinsert st (userKey p s v) (.str c)) p) p s v := by
      unfold store_op kset
      rw [hsf]
      rfl
    rw [hst, store_ref_kfind env _ p s v _ (userKey_ne_registry p s v _),
      register_pfx_kfind env _ p _ (userKey_ne_registry p s v _),
      kfind_kinsert_self]
  · unfold delete_op kdel
    by_cases hdf : env.delFails (userKey p s v) = true
    · rw [hdf]
      simp [hdf]
    · have hdf' : env.delFails (userKey p s v) = false := by
        revert hdf
        cases env.delFails (userKey p s v) <;> simp
      rw [hdf']
      simp only [Bool.false_eq_true, if_false]
      cases hfind : kfind st (userKey p s v) with
      | none => simp [hdf']
      | some vv => simp [hdf']
  · intro hgr
    unfold list_credentials_op
    rw [readRefsRaw_of_getFails env st p hgr]
  · intro hgr
    unfold get_registered_pfxs kget
    rw [hgr]
    rfl

/-- Witness for C8 under a schedule where every registry call fails: the
store still succeeds and persists the secret, and the listing reads
degrade to empty. -/
theorem C8_registry_advisory_witness :
    (store_op envRegFail [] "app" "s" "v" "c").2 = true ∧
    kfind (store_op envRegFail [] "app" "s" "v" "c").1 (userKey "app" "s" "v")
      = some (.str "c") ∧
    list_credentials_op envRegFail [] "app" = ([], []) ∧
    get_registered_pfxs envRegFail [] = [] := by
  refine ⟨by decide,
    (C8_registry_advisory envRegFail [] "app" "s" "v" "c").2.1 (by decide),
    (C8_registry_advisory envRegFail [] "app" "s" "v" "c").2.2.2.1 (by decide),
    (C8_registry_advisory envRegFail [] "app" "s" "v" "c").2.2.2.2 (by decide)⟩

theorem refs_gone_after_kdel (env : Env) (st2 : KStore) (p : String)
    (hd : env.delFails (registryService, refsKey p) = false) :
    kfind (match kdel env st2 (registryService, refsKey p) with
      | .ok st' => st'
      | _ => st2) (registryService, refsKey p) = none := by
  unfold kdel
  rw [hd]
  simp only [Bool.false_eq_true, if_false]
  cases hf : kfind st2 (registryService, refsKey p) with
  | none => exact hf
  | some vv => exact kfind_kerase_self st2 _

theorem no_mem_after_save (env : Env) (std : KStore) (ps : List String)
    (p : String)
    (hs : env.setFails (registryService, registryKey) = false)
    (hp : p ∉ ps) :
    p ∉ list_all_pfxs env (match kdel env (save_registered_pfxs env std ps)
      (registryService, refsKey p) with
      | .ok st' => st'
      | _ => save_registered_pfxs env std ps) := by
  have h1 : kfind (match kdel env (save_registered_pfxs env std ps)
      (registryService, refsKey p) with
      | .ok st' => st'
      | _ => save_registered_pfxs env std ps) (registryService, registryKey)
      = kfind (save_registered_pfxs env std ps)
        (registryService, registryKey) :=
    match_kdel_kfind env _ _ _ (regKey_ne_refsKey p)
  have h2 : kfind (save_registered_pfxs env std ps)
      (registryService, registryKey) = some (.list ps) := by
    unfold save_registered_pfxs kset
    rw [hs]
    simp only [Bool.false_eq_true, if_false]
    exact kfind_kinsert_self _ _ _
  unfold list_all_pfxs
  rw [mem_sortStrings]
  unfold get_registered_pfxs kget
  by_cases hgr : env.getFails (registryService, registryKey) = true
  · rw [if_pos hgr]
    simp
  · rw [if_neg hgr, h1, h2]
    intro hmem
    exact hp (List.mem_dedup.mp hmem)

theorem listcred_of_absent (env : Env) (st : KStore) (p : String)
    (h : kfind st (registryService, refsKey p) = none) :
    list_credentials_op env st p = (st, []) := by
  unfold list_credentials_op
  by_cases hg : env.getFails (registryService, refsKey p) = true
  · rw [readRefsRaw_of_getFails env st p hg]
  · rw [readRefsRaw_of_kfind_none env st p (by
      revert hg
      cases env.getFails (registryService, refsKey p) <;> simp) h]

/-- C5: after delete_prefix (force path) the operation reports success,
the prefix is no longer listed, the per-prefix reference entry is gone and
list_credentials of the prefix is empty — regardless of how many of the
individual secret deletions failed (the failure schedule on user keys is
arbitrary), because the loop never aborts and the registry cleanup runs
unconditionally afterwards. -/
theorem C5_delete_pfx (env : Env) (st : KStore) (p : String)
    (hs : env.setFails (registryService, registryKey) = false)
    (hd : env.delFails (registryService, refsKey p) = false) :
    (delete_pfx env st p).2 = true
  ∧ p ∉ list_all_pfxs env (delete_pfx env st p).1
  ∧ kfind (delete_pfx env st p).1 (registryService, refsKey p) = none
  ∧ (list_credentials_op env (delete_pfx env st p).1 p).2 = [] := by
  have hfilter : ∀ L : List String, p ∉ L.filter (fun q => q ≠ p) := by
    intro L hmem
    have hx := (List.mem_filter.mp hmem).2
    simp at hx
  have h3 : kfind (delete_pfx env st p).1 (registryService, refsKey p)
      = none := by
    unfold delete_pfx
    dsimp only
    exact refs_gone_after_kdel env _ p hd
  refine ⟨rfl, ?_, h3, ?_⟩
  · unfold delete_pfx
    dsimp only
    exact no_mem_after_save env _ _ p hs (hfilter _)
  · rw [listcred_of_absent env _ p h3]

/-- Witness for C5 starting from a store holding one credential under the
prefix. -/
theorem C5_delete_pfx_witness :
    (delete_pfx env0 [(userKey "app" "s" "v", Val.str "x"),
      ((registryService, registryKey), Val.list ["app"]),
      ((registryService, refsKey "app"), Val.list ["s|v"])] "app").2 = true ∧
    "app" ∉ list_all_pfxs env0 (delete_pfx env0
      [(userKey "app" "s" "v", Val.str "x"),
       ((registryService, registryKey), Val.list ["app"]),
       ((registryService, refsKey "app"), Val.list ["s|v"])] "app").1 ∧
    kfind (delete_pfx env0 [(userKey "app" "s" "v", Val.str "x"),
      ((registryService, registryKey), Val.list ["app"]),
      ((registryService, refsKey "app"), Val.list ["s|v"])] "app").1
      (registryService, refsKey "app") = none ∧
    (list_credentials_op env0 (delete_pfx env0
      [(userKey "app" "s" "v", Val.str "x"),
       ((registryService, registryKey), Val.list ["app"]),
       ((registryService, refsKey "app"), Val.list ["s|v"])] "app").1
      "app").2 = [] :=
  C5_delete_pfx env0 [(userKey "app" "s" "v", Val.str "x"),
    ((registryService, registryKey), Val.list ["app"]),
    ((registryService, refsKey "app"), Val.list ["s|v"])] "app"
    (by decide) (by decide)

/-- C2 counterexample: in the file-backed registry, removing the LAST
reference of a prefix also removes the prefix from the known-prefix list
("Clean up empty prefix" in AlternativeStorage.unregister_credential),
contradicting the claim that removeReference never touches knownPrefixes
in both backends. -/
theorem C2_remove_ref_cex :
    ("app" ∈ (FsRegistry.mk ["app"] [("app", ["s|v"])]).pfxs) ∧
    (unregister_credential (FsRegistry.mk ["app"] [("app", ["s|v"])])
      "app" "s" "v").pfxs = [] := by
  refine ⟨by decide, by decide⟩

/-- C2 (amended): the store-backed removeReference never changes the
known-prefix set and deletes the per-prefix reference entry when the
remaining set is empty; the file-backed unregister_credential additionally
REMOVES the prefix from the known-prefix list when its last reference is
removed. -/
theorem C2_remove_ref_amended (env : Env) (st : KStore) (p s v : String)
    (reg : FsRegistry) :
    (get_registered_pfxs env (remove_credential_reference env st p s v) =
      get_registered_pfxs env st)
  ∧ (∀ l, kfind st (registryService, refsKey p) = some (.list l) →
      env.getFails (registryService, refsKey p) = false →
      env.delFails (registryService, refsKey p) = false →
      l.dedup.filter (fun r => r ≠ encodeRef s v) = [] →
      kfind (remove_credential_reference env st p s v)
        (registryService, refsKey p) = none)
  ∧ (∀ l0, credsFind reg.creds p = some l0 → encodeRef s v ∈ l0 →
      l0.erase (encodeRef s v) = [] →
      (unregister_credential reg p s v).pfxs = reg.pfxs.erase p) := by
  refine ⟨?_, ?_, ?_⟩
  · exact get_registered_congr env st _
      (rcr_kfind env st p s v _ (regKey_ne_refsKey p))
  · intro l hl hg hdel hempty
    unfold remove_credential_reference
    rw [readRefsRaw_of_kfind_list env st p l hg hl]
    dsimp only
    rw [if_pos hempty]
    exact refs_gone_after_kdel env st p hdel
  · intro l0 hfind hmem hempty
    unfold unregister_credential
    rw [hfind]
    dsimp only
    rw [if_pos hmem, if_pos hempty]

/-- Witness for the amended C2: removing one of two refs leaves the
store-backed known-prefix set unchanged, and the file-backed branch fires
on the last ref. -/
theorem C2_remove_ref_witness :
    (get_registered_pfxs env0 (remove_credential_reference env0
      [((registryService, registryKey), Val.list ["app"]),
       ((registryService, refsKey "app"), Val.list ["s|v"])] "app" "s" "v") =
      get_registered_pfxs env0
      [((registryService, registryKey), Val.list ["app"]),
       ((registryService, refsKey "app"), Val.list ["s|v"])]) ∧
    kfind (remove_credential_reference env0
      [((registryService, registryKey), Val.list ["app"]),
       ((registryService, refsKey "app"), Val.list ["s|v"])] "app" "s" "v")
      (registryService, refsKey "app") = none ∧
    (unregister_credential (FsRegistry.mk ["app", "b"] [("app", ["s|v"])])
      "app" "s" "v").pfxs = ["app", "b"].erase "app" :=
  ⟨(C2_remove_ref_amended env0 _ "app" "s" "v"
      (FsRegistry.mk ["app", "b"] [("app", ["s|v"])])).1,
   (C2_remove_ref_amended env0 [((registryService, registryKey),
        Val.list ["app"]),
      ((registryService, refsKey "app"), Val.list ["s|v"])] "app" "s" "v"
      (FsRegistry.mk ["app", "b"] [("app", ["s|v"])])).2.1 ["s|v"]
      (by decide) (by decide) (by decide) (by decide),
   (C2_remove_ref_amended env0 [] "app" "s" "v"
      (FsRegistry.mk ["app", "b"] [("app", ["s|v"])])).2.2 ["s|v"]
      (by decide) (by decide) (by decide)⟩

/-- C1: for every prefix p, whatever prior operations (registry-bypassing
ones included) produced the current keyring state st holding raw ref list
l, list_credentials returns exactly the decodable refs whose secret
retrieve currently succeeds, as the sorted list of pairs; it is sorted by
the (service, variable) tuple order; and every decodable ref whose
retrieve fails is pruned from the registry entry.  The hypotheses say the
registry entry is a well-formed list payload and the registry key itself
is operational (C8 covers the failing-registry behavior). -/
theorem C1_list_selfheal (env : Env) (st : KStore) (p : String)
    (l : List String)
    (hl : kfind st (registryService, refsKey p) = some (.list l))
    (hg : env.getFails (registryService, refsKey p) = false)
    (hs : env.setFails (registryService, refsKey p) = false)
    (hd : env.delFails (registryService, refsKey p) = false) :
    (list_credentials_op env st p).2 =
        sortPairs (l.filterMap (aliveInW env st p))
    ∧ (list_credentials_op env st p).2.Pairwise
        (fun a b => pairLeB a b = true)
    ∧ (∀ r ∈ l, hasBar r = true → aliveInW env st p r = none →
        r ∉ regRefsNow (list_credentials_op env st p).1 p) := by
  obtain ⟨h1, h2, h3⟩ := list_credentials_eval env st p l hl hg hs hd
  refine ⟨h1, ?_, h3⟩
  rw [h1]
  exact sortPairs_sorted _

/-- Witness for C1 on a registry holding one stale and one live ref. -/
theorem C1_list_selfheal_witness :
    (list_credentials_op env0 [((registryService, refsKey "app"),
        Val.list ["b|y", "a|x"]), (userKey "app" "a" "x", Val.str "s1")]
      "app").2 =
      sortPairs ((["b|y", "a|x"]).filterMap (aliveInW env0
        [((registryService, refsKey "app"), Val.list ["b|y", "a|x"]),
         (userKey "app" "a" "x", Val.str "s1")] "app"))
    ∧ (list_credentials_op env0 [((registryService, refsKey "app"),
        Val.list ["b|y", "a|x"]), (userKey "app" "a" "x", Val.str "s1")]
      "app").2.Pairwise (fun a b => pairLeB a b = true)
    ∧ (∀ r ∈ ["b|y", "a|x"], hasBar r = true →
        aliveInW env0 [((registryService, refsKey "app"),
          Val.list ["b|y", "a|x"]), (userKey "app" "a" "x", Val.str "s1")]
          "app" r = none →
        r ∉ regRefsNow (list_credentials_op env0
          [((registryService, refsKey "app"), Val.list ["b|y", "a|x"]),
           (userKey "app" "a" "x", Val.str "s1")] "app").1 "app") :=
  C1_list_selfheal env0 [((registryService, refsKey "app"),
      Val.list ["b|y", "a|x"]), (userKey "app" "a" "x", Val.str "s1")]
    "app" ["b|y", "a|x"] (by decide) (by decide) (by decide) (by decide)

theorem count_pair_filterMap (env : Env) (st : KStore) (p s v : String)
    (rs : List String)
    (halive : (retrieve_op env st p s v).isSome = true)
    (hnb : ∀ ch ∈ s.data, ch ≠ '|') :
    List.count (s, v) (rs.filterMap (aliveInW env st p)) =
      List.count (encodeRef s v) rs := by
  induction rs with
  | nil => rfl
  | cons r rest ih =>
    by_cases hr : r = encodeRef s v
    · subst hr
      have hdec : aliveInW env st p (encodeRef s v) = some (s, v) := by
        unfold aliveInW
        rw [decodeRef_encodeRef s v hnb]
        dsimp only
        rw [if_pos halive]
      rw [List.filterMap_cons_some hdec, List.count_cons, List.count_cons, ih]
      simp
    · cases ha : aliveInW env st p r with
      | none =>
        rw [List.filterMap_cons_none ha, List.count_cons, ih]
        have hb2 : (r == encodeRef s v) = false := by simp [hr]
        rw [hb2]
        simp
      | some sv' =>
        have hne : sv' ≠ (s, v) := by
          intro hcontra
          apply hr
          unfold aliveInW at ha
          cases hdr : decodeRef r with
          | none =>
            rw [hdr] at ha
            cases ha
          | some sv2 =>
            rw [hdr] at ha
            dsimp only at ha
            by_cases hi : (retrieve_op env st p sv2.1 sv2.2).isSome = true
            · rw [if_pos hi] at ha
              injection ha with h2
              exact decodeRef_eq_encodeRef r (s, v)
                (by rw [hdr, h2, hcontra])
            · rw [if_neg hi] at ha
              cases ha
        rw [List.filterMap_cons_some ha, List.count_cons, List.count_cons, ih]
        have hb1 : (sv' == (s, v)) = false := by simp [hne]
        have hb2 : (r == encodeRef s v) = false := by simp [hr]
        rw [hb1, hb2]

theorem store_op_decomp (env : Env) (st : KStore) (p s v c : String)
    (hsu : env.setFails (userKey p s v) = false) :
    (store_op env st p s v c).1 =
      store_credential_reference env
        (register_pfx env (kinsert st (userKey p s v) (.str c)) p) p s v := by
  unfold store_op kset
  rw [hsu]
  rfl

theorem store_op_keeps_refs (env : Env) (st : KStore) (p s v c : String) :
    kfind (register_pfx env (kinsert st (userKey p s v) (.str c)) p)
      (registryService, refsKey p) = kfind st (registryService, refsKey p) := by
  rw [register_pfx_kfind env _ p _ (Ne.symm (regKey_ne_refsKey p)),
    kfind_kinsert_ne st _ _ _ (Ne.symm (userKey_ne_registry p s v _))]

theorem store_op_userkey (env : Env) (st : KStore) (p s v c : String)
    (hsu : env.setFails (userKey p s v) = false) :
    kfind (store_op env st p s v c).1 (userKey p s v) = some (.str c) := by
  rw [store_op_decomp env st p s v c hsu,
    store_ref_kfind env _ p s v _ (userKey_ne_registry p s v _),
    register_pfx_kfind env _ p _ (userKey_ne_registry p s v _),
    kfind_kinsert_self]

theorem credsFind_credsSet_self (L : List (String × List String))
    (p : String) (x : List String) :
    credsFind (credsSet L p x) p = some x := by
  simp [credsSet, credsFind]

theorem register_credential_creds (reg : FsRegistry) (p s v : String) :
    credsFind (register_credential reg p s v).creds p =
      some (if encodeRef s v ∈ fsCredsOf reg p then fsCredsOf reg p
        else fsCredsOf reg p ++ [encodeRef s v]) := by
  unfold register_credential
  dsimp only
  rw [credsFind_credsSet_self]
  unfold fsCredsOf
  rfl

theorem count_split_map (s v : String) (hnb : ∀ ch ∈ s.data, ch ≠ '|')
    (M : List String) (hM : ∀ r ∈ M, hasBar r = true) :
    List.count (s, v) (M.map splitRef) = List.count (encodeRef s v) M := by
  induction M with
  | nil => rfl
  | cons r rest ih =>
    rw [List.map_cons, List.count_cons, List.count_cons,
      ih (fun x hx => hM x (List.mem_cons_of_mem r hx))]
    congr 1
    by_cases hr : r = encodeRef s v
    · subst hr
      rw [splitRef_encodeRef s v hnb]
      simp
    · have hsp : splitRef r ≠ (s, v) := by
        intro hcontra
        apply hr
        have hb := hM r (by simp)
        rw [← encodeRef_splitRef r hb, hcontra]
      have hb1 : (splitRef r == (s, v)) = false := by simp [hsp]
      have hb2 : (r == encodeRef s v) = false := by simp [hr]
      rw [hb1, hb2]

theorem perm_count {α : Type} [BEq α] {l1 l2 : List α} (h : l1.Perm l2)
    (a : α) : List.count a l1 = List.count a l2 := by
  unfold List.count
  exact h.countP_eq _

theorem count_eq_one_of_nodup_mem {α : Type} [BEq α] [LawfulBEq α]
    {a : α} {l : List α} (hnd : l.Nodup) (hm : a ∈ l) :
    List.count a l = 1 := by
  induction l with
  | nil => cases hm
  | cons x xs ih =>
    rw [List.count_cons]
    rcases List.mem_cons.mp hm with rfl | hmem
    · rw [List.count_eq_zero.mpr (List.nodup_cons.mp hnd).1]
      simp
    · have hne : x ≠ a := by
        intro hcontra
        subst hcontra
        exact (List.nodup_cons.mp hnd).1 hmem
      have hb : (x == a) = false := by simp [hne]
      rw [hb, ih (List.nodup_cons.mp hnd).2 hmem]
      simp

/-- C9 counterexample: with a service name containing the registry
delimiter '|' — which no validation rejects — the stored reference
"a|b|c" decodes as ("a", "b|c"), so after two successful stores
listCredentials contains no entry at all for the reference ("a|b", "c")
(and prunes the corrupt ref), refuting "exactly one entry for R" for
every reference. -/
theorem C9_idempotent_cex :
    (store_op env0 [] "app" "a|b" "c" "x").2 = true ∧
    (list_credentials_op env0
      (store_op env0 (store_op env0 [] "app" "a|b" "c" "x").1
        "app" "a|b" "c" "x").1 "app").2.count ("a|b", "c") = 0 := by
  refine ⟨by decide, by decide⟩

/-- C9 (amended): provided the service name contains no '|' (the registry
encoding's delimiter), storing the same (p, s, v, c) twice leaves
list_credentials with exactly one entry for (s, v); and the file-backed
registry whose current per-prefix list holds at most one copy of the
encoded ref likewise ends with exactly one entry after two
register_credential calls. -/
theorem C9_idempotent (env : Env) (st : KStore) (p s v c : String)
    (hgu : env.getFails (userKey p s v) = false)
    (hsu : env.setFails (userKey p s v) = false)
    (hgr : env.getFails (registryService, refsKey p) = false)
    (hsr : env.setFails (registryService, refsKey p) = false)
    (hdr : env.delFails (registryService, refsKey p) = false)
    (hnb : ∀ ch ∈ s.data, ch ≠ '|')
    (hnc : ∀ cc, kfind st (registryService, refsKey p) ≠ some (.str cc)) :
    (list_credentials_op env
      (store_op env (store_op env st p s v c).1 p s v c).1 p).2.count (s, v)
      = 1
  ∧ ∀ reg : FsRegistry, (fsCredsOf reg p).count (encodeRef s v) ≤ 1 →
      (fs_list_credentials (register_credential
        (register_credential reg p s v) p s v) p).count (s, v) = 1 := by
  constructor
  · have hnc1 : ∀ cc, kfind (register_pfx env (kinsert st (userKey p s v)
        (.str c)) p) (registryService, refsKey p) ≠ some (.str cc) := by
      intro cc
      rw [store_op_keeps_refs env st p s v c]
      exact hnc cc
    obtain ⟨rs, hrs, hnd, hm⟩ :=
      store_ref_spec env (register_pfx env (kinsert st (userKey p s v)
        (.str c)) p) p s v hgr hsr hnc1
    have hrs1 : kfind (store_op env st p s v c).1
        (registryService, refsKey p) = some (.list rs) := by
      rw [store_op_decomp env st p s v c hsu]
      exact hrs
    have hrs2 : kfind (store_op env (store_op env st p s v c).1 p s v c).1
        (registryService, refsKey p) = some (.list rs) := by
      rw [store_op_decomp env _ p s v c hsu]
      apply store_ref_stable env _ p s v hgr hsr rs _ hnd hm
      rw [store_op_keeps_refs env _ p s v c]
      exact hrs1
    have huser : kfind (store_op env (store_op env st p s v c).1 p s v c).1
        (userKey p s v) = some (.str c) :=
      store_op_userkey env _ p s v c hsu
    have halive : (retrieve_op env
        (store_op env (store_op env st p s v c).1 p s v c).1 p s v).isSome
        = true := by
      unfold retrieve_op kget
      rw [hgu]
      simp only [Bool.false_eq_true, if_false]
      rw [huser]
      rfl
    have heval := (list_credentials_eval env _ p rs hrs2 hgr hsr hdr).1
    rw [heval, perm_count (sortPairs_perm _) (s, v),
      count_pair_filterMap env _ p s v rs halive hnb]
    exact count_eq_one_of_nodup_mem hnd hm
  · intro reg hcount
    have h1 := register_credential_creds reg p s v
    have hc1 : (if encodeRef s v ∈ fsCredsOf reg p then fsCredsOf reg p
        else fsCredsOf reg p ++ [encodeRef s v]).count (encodeRef s v)
        = 1 := by
      by_cases hmem : encodeRef s v ∈ fsCredsOf reg p
      · rw [if_pos hmem]
        have hpos := List.count_pos_iff.mpr hmem
        omega
      · rw [if_neg hmem, List.count_append,
          List.count_eq_zero.mpr hmem]
        simp
    have hmem1 : encodeRef s v ∈ (if encodeRef s v ∈ fsCredsOf reg p
        then fsCredsOf reg p else fsCredsOf reg p ++ [encodeRef s v]) := by
      by_cases hmem : encodeRef s v ∈ fsCredsOf reg p
      · rw [if_pos hmem]
        exact hmem
      · rw [if_neg hmem]
        simp
    have h2 : fsCredsOf (register_credential reg p s v) p =
        (if encodeRef s v ∈ fsCredsOf reg p then fsCredsOf reg p
          else fsCredsOf reg p ++ [encodeRef s v]) := by
      unfold fsCredsOf
      rw [h1]
      rfl
    have h3 := register_credential_creds (register_credential reg p s v) p s v
    rw [h2, if_pos hmem1] at h3
    unfold fs_list_credentials
    rw [h3]
    dsimp only
    rw [perm_count (sortPairs_perm _) (s, v),
      count_split_map s v hnb _ (fun r hr => (List.mem_filter.mp hr).2),
      List.count_filter (hasBar_encodeRef s v)]
    exact hc1

/-- Witness for the amended C9 at a bar-free reference. -/
theorem C9_idempotent_witness :
    (list_credentials_op env0
      (store_op env0 (store_op env0 [] "app" "s" "v" "x").1
        "app" "s" "v" "x").1 "app").2.count ("s", "v") = 1 ∧
    (fs_list_credentials (register_credential
      (register_credential (FsRegistry.mk [] []) "app" "s" "v")
      "app" "s" "v") "app").count ("s", "v") = 1 :=
  ⟨(C9_idempotent env0 [] "app" "s" "v" "x" (by decide) (by decide)
      (by decide) (by decide) (by decide) (by decide)
      (fun cc h => Option.noConfusion h)).1,
   (C9_idempotent env0 [] "app" "s" "v" "x" (by decide) (by decide)
      (by decide) (by decide) (by decide) (by decide)
      (fun cc h => Option.noConfusion h)).2 (FsRegistry.mk [] [])
      (by decide)⟩
